import Mathlib

/-!
Verification of the rwalk crawl engine against its specification.

The development shallowly embeds the Rust sources (`src/main.rs`,
`src/runner/classic.rs`, `src/runner/recursive.rs`) as executable Lean
functions.  Strings are manipulated through their underlying `List Char`
so that every operation reduces inside the kernel; recursions whose
termination depends on arithmetic use an explicit fuel argument that is
always instantiated with a sufficient bound.

Components of the crate that are not part of the provided sources
(`tree.rs`, `utils.rs`, `constants.rs`, the filter predicates and the
external crates `sha2`, `url`, `reqwest`, `itertools`) are either
modelled from the specification's description or kept abstract as
function parameters, as noted on each definition.
-/

namespace Rwalk

/-- The subset of the command-line options consumed by the crawl engine
(`Opts` in the source; only the fields the verified code paths read). -/
structure Opts where
  url : String
  threads : Option Nat
  maxDepth : Option Nat
  throttle : Option Nat
  fuzz_key : Option String
  permutations : Bool
  hit_connection_errors : Bool
  resume : Bool
  save_file : String
  no_save : Bool

/-- Modelled from the spec: the default placeholder token (`FUZZ_KEY` in
`constants.rs`, which is not among the provided sources).  The glossary
calls it "the placeholder token in the URL template"; its concrete value
never matters to the theorems below. -/
def FUZZ_KEY : String := "FUZZ"

/-- Fuel-driven core of `countMatches`: the number of non-overlapping
occurrences of `pat`, scanning left to right, as Rust
`str::matches(pat).count()` does.  An empty pattern never matches (the
fuzz key is a non-empty token).  `fuel ≥ s.length` makes the scan total. -/
def countMatchesF (pat : List Char) : Nat → List Char → Nat
  | 0, _ => 0
  | _ + 1, [] => 0
  | fuel + 1, c :: cs =>
    if pat ≠ [] ∧ pat.isPrefixOf (c :: cs) then
      1 + countMatchesF pat fuel ((c :: cs).drop pat.length)
    else
      countMatchesF pat fuel cs

/-- Number of non-overlapping occurrences of `pat` in `s`
(`self.url.matches(fuzz_key).count()` in `Classic::generate_urls`). -/
def countMatches (s pat : List Char) : Nat :=
  countMatchesF pat s.length s

/-- Fuel-driven core of `replaceAll`: replace every non-overlapping
occurrence of `pat` by `rep`, scanning left to right, as Rust
`str::replace` does. -/
def replaceAllF (pat rep : List Char) : Nat → List Char → List Char
  | 0, s => s
  | _ + 1, [] => []
  | fuel + 1, c :: cs =>
    if pat ≠ [] ∧ pat.isPrefixOf (c :: cs) then
      rep ++ replaceAllF pat rep fuel ((c :: cs).drop pat.length)
    else
      c :: replaceAllF pat rep fuel cs

/-- `s` with every occurrence of `pat` replaced by `rep`
(Rust `str::replace`, which replaces **all** matches). -/
def replaceAll (s pat rep : List Char) : List Char :=
  replaceAllF pat rep s.length s

/-- `String` wrapper around `replaceAll`. -/
def strReplace (s pat rep : String) : String :=
  ⟨replaceAll s.data pat.data rep.data⟩

/-- Every way to pick one element out of a list: the element together
with the remaining elements, in order of the picked position. -/
def picks {α : Type} : List α → List (α × List α)
  | [] => []
  | x :: xs => (x, xs) :: (picks xs).map (fun p => (p.1, x :: p.2))

/-- All ordered `k`-permutations of `l`, in the order `itertools`'s
`permutations(k)` emits them (lexicographic in the picked positions). -/
def kperms {α : Type} : List α → Nat → List (List α)
  | _, 0 => [[]]
  | l, k + 1 => (picks l).flatMap (fun p => (kperms p.2 k).map (fun c => p.1 :: c))

/-- `Classic::generate_urls`: with `permutations` enabled, count the fuzz
key's occurrences in the template, enumerate the ordered permutations of
that size, and fold `str::replace` over each permutation's words;
otherwise produce one URL per word, replacing all occurrences. -/
def generate_urls (opts : Opts) (url : String) (words : List String) : List String :=
  let key := (opts.fuzz_key.getD FUZZ_KEY).data
  if opts.permutations then
    let token_count := countMatches url.data key
    (kperms words token_count).map
      (fun c => ⟨c.foldl (fun u w => replaceAll u key w.data) url.data⟩)
  else
    words.map (fun w => ⟨replaceAll url.data key w.data⟩)

/-- An `Opts` value with `permutations` enabled and an explicit fuzz key,
used to evaluate `generate_urls` on concrete inputs. -/
def permOpts : Opts :=
  { url := "http://h/FUZZ/FUZZ", threads := none, maxDepth := none,
    throttle := none, fuzz_key := some "FUZZ", permutations := true,
    hit_connection_errors := false, resume := false,
    save_file := ".rwalk.json", no_save := false }

/-- C4: with two occurrences of the fuzz key and wordlist `[a, b]` the
generator emits one URL per ordered 2-permutation, but because
`str::replace` replaces **all** occurrences, the permutation's first word
fills both slots: the output is `["http://h/a/a", "http://h/b/b"]`,
not the claimed left-to-right substitution `["http://h/a/b",
"http://h/b/a"]`. -/
theorem generate_urls_first_word_fills_all_slots :
    generate_urls permOpts "http://h/FUZZ/FUZZ" ["a", "b"] =
      ["http://h/a/a", "http://h/b/b"] := by
  decide

/-- C10: with `permutations` enabled and zero occurrences of the fuzz key
in the template, the generator emits exactly the unmodified template, for
any non-empty wordlist: the only ordered 0-permutation is the empty one,
and the fold over it leaves the template untouched. -/
theorem generate_urls_no_placeholder (opts : Opts) (url : String)
    (words : List String) (hperm : opts.permutations = true)
    (hkey : countMatches url.data (opts.fuzz_key.getD FUZZ_KEY).data = 0)
    (hne : words ≠ []) :
    generate_urls opts url words = [url] := by
  unfold generate_urls
  rw [hperm]
  simp only [if_pos rfl, hkey, kperms, List.map, List.foldl]
  rfl

/-- The zero-placeholder case evaluated at a concrete template and
wordlist: `generate_urls` returns the template unchanged. -/
theorem generate_urls_no_placeholder_witness :
    generate_urls
      { permOpts with url := "http://h/x", permutations := true }
      "http://h/x" ["a", "b"] = ["http://h/x"] :=
  generate_urls_no_placeholder _ _ _ rfl (by decide) (by decide)

/-- The thread count computed in `_main`:
`opts.threads.unwrap_or(num_cpus::get() * 10).max(1).min(words.len())`. -/
def threads_of (configured : Option Nat) (cpus : Nat) (word_count : Nat) : Nat :=
  ((configured.getD (cpus * 10)).max 1).min word_count

/-- Fuel-driven core of `rustChunks`: Rust `slice::chunks(n)`, which cuts
the slice into pieces of `n` elements, the last piece possibly shorter.
Rust panics on `n = 0`; that case never arises on the verified paths and
is given the junk value `[]`.  `fuel ≥ l.length` makes the cut total. -/
def rustChunksF {α : Type} : Nat → Nat → List α → List (List α)
  | 0, _, _ => []
  | _ + 1, _, [] => []
  | fuel + 1, n, c :: cs =>
    if n = 0 then []
    else (c :: cs).take n :: rustChunksF fuel n ((c :: cs).drop n)

/-- Rust `slice::chunks(n)` on a list. -/
def rustChunks {α : Type} (l : List α) (n : Nat) : List (List α) :=
  rustChunksF l.length n l

/-- The chunking performed in `_main`:
`words.chunks(words.len() / threads)`. -/
def main_chunks (words : List String) (threads : Nat) : List (List String) :=
  rustChunks words (words.length / threads)

theorem rustChunksF_flatten {α : Type} :
    ∀ (fuel n : Nat) (l : List α), 1 ≤ n → l.length ≤ fuel →
      (rustChunksF fuel n l).flatten = l
  | 0, _, l, _, hf => by
    simp only [Nat.le_zero, List.length_eq_zero] at hf
    simp [hf, rustChunksF]
  | fuel + 1, n, [], _, _ => by simp [rustChunksF]
  | fuel + 1, n, c :: cs, hn, hf => by
    have hn0 : n ≠ 0 := Nat.one_le_iff_ne_zero.mp hn
    simp only [List.length_cons] at hf
    have hdrop : ((c :: cs).drop n).length ≤ fuel := by
      simp only [List.length_drop, List.length_cons]
      omega
    simp only [rustChunksF, if_neg hn0, List.flatten_cons,
      rustChunksF_flatten fuel n ((c :: cs).drop n) hn hdrop]
    exact List.take_append_drop n (c :: cs)

theorem ceil_div_step (L n : Nat) (hL : 1 ≤ L) (hn : 1 ≤ n) :
    (L - n + n - 1) / n + 1 = (L + n - 1) / n := by
  have key : (L + n - 1) / n = (L - 1) / n + 1 := by
    rw [show L + n - 1 = L - 1 + n by omega, Nat.add_div_right _ (by omega)]
  rw [key]
  rcases Nat.le_total L n with hle | hlt
  · rw [show L - n + n - 1 = n - 1 by omega, Nat.div_eq_of_lt (by omega),
      Nat.div_eq_of_lt (by omega)]
  · rw [show L - n + n - 1 = L - 1 by omega]

theorem rustChunksF_length {α : Type} :
    ∀ (fuel n : Nat) (l : List α), 1 ≤ n → l.length ≤ fuel →
      (rustChunksF fuel n l).length = (l.length + n - 1) / n
  | 0, n, l, hn, hf => by
    simp only [Nat.le_zero, List.length_eq_zero] at hf
    subst hf
    simp only [rustChunksF, List.length_nil]
    rw [Nat.div_eq_of_lt (by omega)]
  | fuel + 1, n, [], hn, _ => by
    simp only [rustChunksF, List.length_nil]
    rw [Nat.div_eq_of_lt (by omega)]
  | fuel + 1, n, c :: cs, hn, hf => by
    have hn0 : n ≠ 0 := Nat.one_le_iff_ne_zero.mp hn
    simp only [List.length_cons] at hf
    have hdrop : ((c :: cs).drop n).length ≤ fuel := by
      simp only [List.length_drop, List.length_cons]
      omega
    simp only [rustChunksF, if_neg hn0, List.length_cons,
      rustChunksF_length fuel n ((c :: cs).drop n) hn hdrop,
      List.length_drop, List.length_cons]
    exact ceil_div_step (cs.length + 1) n (by omega) hn

/-- A concrete integer-division counterexample seen by the chunker: ten
words split across three workers. -/
def wordsTen : List String :=
  ["w0", "w1", "w2", "w3", "w4", "w5", "w6", "w7", "w8", "w9"]

/-- C3 (counterexample): with ten words and three configured threads,
`T = 3` but `words.chunks(10 / 3)` yields `4` chunks, so the number of
chunks does not equal `T`. -/
theorem main_chunks_count_ne_threads :
    threads_of (some 3) 4 wordsTen.length = 3 ∧
      (main_chunks wordsTen (threads_of (some 3) 4 wordsTen.length)).length = 4 ∧
      (main_chunks wordsTen (threads_of (some 3) 4 wordsTen.length)).length ≠
        threads_of (some 3) 4 wordsTen.length := by
  refine ⟨by decide, by decide, by decide⟩

/-- C3 (amended): for a non-empty final wordlist, `T` is
`min(max(configured_threads, 1), |W|)` with `configured_threads`
defaulting to ten times the CPU count, the chunks are contiguous slices
of `⌊|W| / T⌋` words (the last possibly shorter) whose concatenation is
`W`, and their number is `⌈|W| / ⌊|W| / T⌋⌉`, which is at least `T` but
can exceed it. -/
theorem main_chunks_spec (configured : Option Nat) (cpus : Nat)
    (words : List String) (hne : words ≠ []) :
    (main_chunks words (threads_of configured cpus words.length)).flatten = words ∧
    (main_chunks words (threads_of configured cpus words.length)).length =
      (words.length + words.length / threads_of configured cpus words.length - 1) /
        (words.length / threads_of configured cpus words.length) ∧
    threads_of configured cpus words.length ≤
      (main_chunks words (threads_of configured cpus words.length)).length := by
  have hw : 1 ≤ words.length := by
    cases words with
    | nil => exact absurd rfl hne
    | cons a l => simp
  set T := threads_of configured cpus words.length with hT
  have hT1 : 1 ≤ T := by
    rw [hT, threads_of]
    exact le_min (le_max_right _ _) hw
  have hTw : T ≤ words.length := by
    rw [hT, threads_of]
    exact min_le_right _ _
  have hq1 : 1 ≤ words.length / T := (Nat.one_le_div_iff (by omega)).mpr hTw
  have hflat := rustChunksF_flatten words.length (words.length / T) words hq1 le_rfl
  have hlen := rustChunksF_length words.length (words.length / T) words hq1 le_rfl
  refine ⟨hflat, hlen, ?_⟩
  rw [main_chunks, rustChunks, hlen]
  have hTq : T ≤ words.length / (words.length / T) :=
    (Nat.le_div_iff_mul_le (by omega)).mpr
      (by rw [Nat.mul_comm]; exact Nat.div_mul_le_self words.length T)
  calc T ≤ words.length / (words.length / T) := hTq
    _ ≤ (words.length + words.length / T - 1) / (words.length / T) :=
        Nat.div_le_div_right (by omega)

/-- The amended chunking statement evaluated on the ten-word example:
the chunks concatenate back to the wordlist and number four, at least
`T = 3`. -/
theorem main_chunks_spec_witness :
    (main_chunks wordsTen (threads_of (some 3) 4 wordsTen.length)).flatten = wordsTen ∧
    (main_chunks wordsTen (threads_of (some 3) 4 wordsTen.length)).length =
      (wordsTen.length + wordsTen.length / threads_of (some 3) 4 wordsTen.length - 1) /
        (wordsTen.length / threads_of (some 3) 4 wordsTen.length) ∧
    threads_of (some 3) 4 wordsTen.length ≤
      (main_chunks wordsTen (threads_of (some 3) 4 wordsTen.length)).length :=
  main_chunks_spec (some 3) 4 wordsTen (by decide)

/-- Rust `Vec::dedup`: remove consecutive repeated elements, keeping one
representative of each run. -/
def dedupAdj {α : Type} [DecidableEq α] : List α → List α
  | [] => []
  | [a] => [a]
  | a :: b :: t => if a = b then dedupAdj (b :: t) else a :: dedupAdj (b :: t)

theorem mem_dedupAdj {α : Type} [DecidableEq α] :
    ∀ (l : List α) (x : α), x ∈ dedupAdj l → x ∈ l
  | [], _, h => by simp [dedupAdj] at h
  | [a], x, h => by simpa [dedupAdj] using h
  | a :: b :: t, x, h => by
    by_cases hab : a = b
    · simp only [dedupAdj, if_pos hab] at h
      exact List.mem_cons_of_mem _ (mem_dedupAdj (b :: t) x h)
    · simp only [dedupAdj, if_neg hab] at h
      rcases List.mem_cons.mp h with h | h
      · exact h ▸ List.mem_cons_self _ _
      · exact List.mem_cons_of_mem _ (mem_dedupAdj (b :: t) x h)

theorem dedupAdj_sorted_lt {α : Type} [DecidableEq α] [LinearOrder α] :
    ∀ l : List α, l.Sorted (· ≤ ·) → (dedupAdj l).Sorted (· < ·)
  | [], _ => by simp [dedupAdj]
  | [a], _ => by simp [dedupAdj]
  | a :: b :: t, h => by
    have htail : (b :: t).Sorted (· ≤ ·) := h.of_cons
    have hab : a ≤ b := (List.sorted_cons.mp h).1 b (List.mem_cons_self _ _)
    by_cases heq : a = b
    · simpa only [dedupAdj, if_pos heq] using dedupAdj_sorted_lt (b :: t) htail
    · simp only [dedupAdj, if_neg heq, List.sorted_cons]
      refine ⟨fun x hx => ?_, dedupAdj_sorted_lt (b :: t) htail⟩
      have hbx : b ≤ x := by
        rcases List.mem_cons.mp (mem_dedupAdj _ _ hx) with hxb | hxt
        · exact hxb ▸ le_refl b
        · exact (List.sorted_cons.mp htail).1 x hxt
      exact lt_of_lt_of_le (lt_of_le_of_ne hab heq) hbx

/-- Modelled from the spec: `parse_wordlists` (in `utils.rs`, not among
the provided sources) "concatenates contents of all files, splits on
newlines, discards empty lines". -/
def load_words (files : List String) : List String :=
  ((String.join files).splitOn "\n").filter (fun w => w ≠ "")

/-- The wordlist preparation performed at the top of `_main`:
`parse_wordlists`, then `apply_filters`, then `apply_transformations`,
then `sort_unstable`, then `dedup`, and a fatal exit with code 1 when
the final list is empty.  The user-configured word predicates and word
transformations (`apply_filters` / `apply_transformations`, in
`utils.rs`) are abstracted as the parameters `keep` and `transform`;
`sort_unstable` is embedded as insertion sort, which produces the same
sorted sequence. -/
def wordlist_pipeline (keep : String → Bool) (transform : String → String)
    (files : List String) : Except Nat (List String) :=
  let loaded := load_words files
  let kept := loaded.filter keep
  let transformed := kept.map transform
  let sorted := List.insertionSort (· ≤ ·) transformed
  let final := dedupAdj sorted
  if final.isEmpty then Except.error 1 else Except.ok final

/-- C9: the pipeline applies load, filter, transform, sort, dedup in that
fixed order (the shape of `wordlist_pipeline` mirrors `_main`); whenever
it succeeds the final wordlist is lexicographically sorted, free of
duplicates and non-empty, and the only failure is the fatal exit with
code 1 on an empty final wordlist. -/
theorem wordlist_pipeline_sorted_nodup (keep : String → Bool)
    (transform : String → String) (files : List String) :
    (∀ l, wordlist_pipeline keep transform files = Except.ok l →
      l.Sorted (· ≤ ·) ∧ l.Nodup ∧ l ≠ []) ∧
    (wordlist_pipeline keep transform files = Except.error 1 ∨
      ∃ l, wordlist_pipeline keep transform files = Except.ok l) := by
  have hsorted :
      (dedupAdj (List.insertionSort (· ≤ ·)
        (((load_words files).filter keep).map transform))).Sorted (· < ·) :=
    dedupAdj_sorted_lt
      (List.insertionSort (· ≤ ·) (((load_words files).filter keep).map transform))
      (List.sorted_insertionSort (· ≤ ·) _)
  simp only [wordlist_pipeline]
  by_cases hemp : (dedupAdj (List.insertionSort (· ≤ ·)
      (((load_words files).filter keep).map transform))).isEmpty
  · rw [if_pos hemp]
    refine ⟨?_, Or.inl rfl⟩
    intro l h
    exact Except.noConfusion h
  · rw [if_neg hemp]
    refine ⟨?_, Or.inr ⟨_, rfl⟩⟩
    intro l h
    cases h
    refine ⟨hsorted.imp le_of_lt, hsorted.nodup, ?_⟩
    intro hnil
    rw [hnil] at hemp
    exact hemp rfl

/-- `TreeData` (in `tree.rs`, modelled from the spec §3): the record
stored at every discovered node.  `extra` holds the `{key, value}` pairs
derived by the show rules. -/
structure TreeData where
  url : String
  depth : Nat
  path : String
  status_code : Nat
  extra : List (String × String)

/-- `TreeNode` (modelled from the spec §3): a data record and an ordered
sequence of children; nodes know their children, not their parent. -/
inductive TreeNode where
  | node (data : TreeData) (children : List TreeNode)

def TreeNode.data : TreeNode → TreeData
  | TreeNode.node d _ => d

def TreeNode.children : TreeNode → List TreeNode
  | TreeNode.node _ c => c

@[simp] theorem TreeNode.data_node (d : TreeData) (c : List TreeNode) :
    (TreeNode.node d c).data = d := rfl

@[simp] theorem TreeNode.children_node (d : TreeData) (c : List TreeNode) :
    (TreeNode.node d c).children = c := rfl

/-- `Tree` (modelled from the spec §3/§4.1): an optional root.  `insert`
with no parent sets the root; with a parent it appends a child to that
parent's children.  The classic worker's inserts all target the root
node, which per §4.1 is shared, so they are embedded below as appends to
the root's child list. -/
structure Tree where
  root : Option TreeNode

/-- One `response.chunk().await` result: `Ok(Some(bytes))` (a body
chunk, already lossily decoded), `Ok(None)` (end of body) or `Err(_)`. -/
inductive ChunkRes where
  | ok (chunk : Option String)
  | err

/-- The body-drain loop shared by both runners
(`while let Ok(chunk) = response.chunk().await { if let Some(chunk)
{ text.push_str(..) } else { break } }`): concatenate chunk contents
until the end marker, a read error, or stream exhaustion. -/
def drainBody : List ChunkRes → String
  | [] => ""
  | ChunkRes.err :: _ => ""
  | ChunkRes.ok none :: _ => ""
  | ChunkRes.ok (some c) :: rest => c ++ drainBody rest

/-- The outcome of `sender.send().await` for one candidate URL: an HTTP
response (status plus the stream of body-chunk reads) or a transport
error (with its `is_connect()` classification). -/
inductive Outcome where
  | response (status : Nat) (stream : List ChunkRes)
  | transportError (is_connect : Bool)

/-- The per-URL recording decision of `Classic::process_chunk`: on a
response, drain the body, evaluate the filter predicate, and on success
build the `TreeData` inserted under the root (depth 0, path = response
path with the root path stripped); on a transport error, record a
synthetic `status_code = 0` entry iff `hit_connection_errors` is set and
the error is a connect failure.  The filter predicate `check`
(`filters::check`, body and status arguments; not among the provided
sources) and the show-rule extraction `parse_show` are abstract; the
`url` crate's path extraction is the abstract `url_path`. -/
def classic_record (opts : Opts) (check : String → Nat → Bool)
    (parse_show : String → List (String × String)) (url_path : String → String)
    (root_url : String) (url : String) (outcome : Outcome) : Option TreeData :=
  match outcome with
  | Outcome.response status stream =>
    let text := drainBody stream
    if check text status then
      some { url := url, depth := 0,
             path := strReplace (url_path url) (url_path root_url) "",
             status_code := status, extra := parse_show text }
    else none
  | Outcome.transportError is_connect =>
    if opts.hit_connection_errors && is_connect then
      some { url := url, depth := 0,
             path := strReplace (url_path url) (url_path root_url) "",
             status_code := 0, extra := [] }
    else none

/-- `Classic::process_chunk` over its chunk of candidate URLs: walk the
chunk in order, and append each recorded discovery as a direct child of
the root.  `outcomes` gives each URL's network outcome. -/
def classic_process_chunk (opts : Opts) (check : String → Nat → Bool)
    (parse_show : String → List (String × String)) (url_path : String → String)
    (outcomes : String → Outcome) : List String → TreeNode → TreeNode
  | [], root => root
  | url :: rest, root =>
    match classic_record opts check parse_show url_path root.data.url url
        (outcomes url) with
    | some d =>
      classic_process_chunk opts check parse_show url_path outcomes rest
        (TreeNode.node root.data (root.children ++ [TreeNode.node d []]))
    | none =>
      classic_process_chunk opts check parse_show url_path outcomes rest root

/-- The discoveries of a chunk: the URLs whose outcome is recorded, in
chunk order, as the `TreeData` entries built by `classic_record`. -/
def classic_discoveries (opts : Opts) (check : String → Nat → Bool)
    (parse_show : String → List (String × String)) (url_path : String → String)
    (outcomes : String → Outcome) (root_url : String)
    (chunk : List String) : List TreeData :=
  chunk.filterMap (fun u => classic_record opts check parse_show url_path root_url u (outcomes u))

theorem classic_record_depth (opts : Opts) (check : String → Nat → Bool)
    (parse_show : String → List (String × String)) (url_path : String → String)
    (root_url url : String) (outcome : Outcome) (d : TreeData)
    (h : classic_record opts check parse_show url_path root_url url outcome = some d) :
    d.depth = 0 := by
  cases outcome with
  | response status stream =>
    simp only [classic_record] at h
    by_cases hc : check (drainBody stream) status
    · rw [if_pos hc] at h
      cases h
      rfl
    · rw [if_neg hc] at h
      exact Option.noConfusion h
  | transportError is_connect =>
    simp only [classic_record] at h
    by_cases hc : (opts.hit_connection_errors && is_connect) = true
    · rw [if_pos hc] at h
      cases h
      rfl
    · rw [if_neg hc] at h
      exact Option.noConfusion h

/-- C1: in classic mode every recorded outcome — a response passing the
filter predicate, or a connect error under `hit_connection_errors` — and
only those, is appended as a direct child of the current root, in chunk
order, and every such discovery carries depth 0; the root's own data is
untouched, so after the run the discoveries are the root's children. -/
theorem classic_process_chunk_inserts (opts : Opts) (check : String → Nat → Bool)
    (parse_show : String → List (String × String)) (url_path : String → String)
    (outcomes : String → Outcome) :
    ∀ (chunk : List String) (root : TreeNode),
      (classic_process_chunk opts check parse_show url_path outcomes chunk root).data
        = root.data ∧
      (classic_process_chunk opts check parse_show url_path outcomes chunk root).children
        = root.children ++
          (classic_discoveries opts check parse_show url_path outcomes
            root.data.url chunk).map (fun d => TreeNode.node d []) ∧
      ∀ d ∈ classic_discoveries opts check parse_show url_path outcomes
          root.data.url chunk, d.depth = 0
  | [], root => by
    simp [classic_process_chunk, classic_discoveries]
  | url :: rest, root => by
    simp only [classic_process_chunk, classic_discoveries, List.filterMap_cons]
    cases hrec : classic_record opts check parse_show url_path root.data.url url
        (outcomes url) with
    | none =>
      have ih := classic_process_chunk_inserts opts check parse_show url_path
        outcomes rest root
      exact ⟨ih.1, ih.2.1, fun d hd => ih.2.2 d hd⟩
    | some d0 =>
      have ih := classic_process_chunk_inserts opts check parse_show url_path
        outcomes rest (TreeNode.node root.data (root.children ++ [TreeNode.node d0 []]))
      refine ⟨ih.1, ?_, ?_⟩
      · rw [ih.2.1]
        simp [classic_discoveries]
      · intro d hd
        rcases List.mem_cons.mp hd with hd0 | hdrest
        · exact hd0 ▸ classic_record_depth opts check parse_show url_path
            root.data.url url (outcomes url) d0 hrec
        · exact ih.2.2 d hdrest

/-- Observable events of the per-response code path: a body-chunk read,
or the evaluation of the filter predicate on a body and status. -/
inductive RespEvent where
  | read_chunk (content : String)
  | check_filter (body : String) (status : Nat)

/-- The reads performed by the drain loop, in order: one `read_chunk`
per `Ok(Some(_))` result consumed before the loop stops. -/
def drain_events : List ChunkRes → List RespEvent
  | [] => []
  | ChunkRes.err :: _ => []
  | ChunkRes.ok none :: _ => []
  | ChunkRes.ok (some c) :: rest => RespEvent.read_chunk c :: drain_events rest

/-- The event trace of the response arm of `process_chunk` (identical in
`classic.rs` lines 126-142 and `recursive.rs` lines 180-196): the status
is captured, the body is drained chunk by chunk, and only then is
`filters::check` evaluated on the accumulated text and that status. -/
def handle_response_events (status : Nat) (stream : List ChunkRes) : List RespEvent :=
  drain_events stream ++ [RespEvent.check_filter (drainBody stream) status]

/-- The chunk-read stream of a response whose body is delivered as
`chunks` followed by a clean end-of-body marker. -/
def clean_stream (chunks : List String) : List ChunkRes :=
  chunks.map (fun c => ChunkRes.ok (some c)) ++ [ChunkRes.ok none]

/-- The content read by an event (`""` for the filter evaluation). -/
def RespEvent.content : RespEvent → String
  | RespEvent.read_chunk c => c
  | RespEvent.check_filter _ _ => ""

/-- Concatenation of a list of strings (`text.push_str` accumulation). -/
def concatStrings : List String → String
  | [] => ""
  | c :: rest => c ++ concatStrings rest

theorem drainBody_eq_join_drain_events :
    ∀ stream : List ChunkRes,
      drainBody stream = concatStrings ((drain_events stream).map RespEvent.content)
  | [] => rfl
  | ChunkRes.err :: _ => rfl
  | ChunkRes.ok none :: _ => rfl
  | ChunkRes.ok (some c) :: rest => by
    show c ++ drainBody rest = _
    rw [drainBody_eq_join_drain_events rest]
    rfl

theorem drainBody_clean_stream :
    ∀ chunks : List String, drainBody (clean_stream chunks) = concatStrings chunks
  | [] => rfl
  | c :: rest => by
    show c ++ drainBody (clean_stream rest) = c ++ concatStrings rest
    rw [drainBody_clean_stream rest]

/-- C7: for every response, the event trace of both runners' response
arm consists of the body-chunk reads followed — last — by the single
filter evaluation; the body handed to the filter is exactly the
concatenation of all read chunks together with the captured status, and
when the stream ends cleanly that body is the complete response body. -/
theorem handle_response_drains_before_filter (status : Nat)
    (stream : List ChunkRes) :
    handle_response_events status stream =
      drain_events stream ++
        [RespEvent.check_filter
          (concatStrings ((drain_events stream).map RespEvent.content)) status] ∧
    (∀ e ∈ drain_events stream, ∃ c, e = RespEvent.read_chunk c) ∧
    (handle_response_events status stream).getLast? =
      some (RespEvent.check_filter (drainBody stream) status) ∧
    (∀ chunks : List String, drainBody (clean_stream chunks) = concatStrings chunks) := by
  refine ⟨?_, ?_, ?_, drainBody_clean_stream⟩
  · rw [handle_response_events, drainBody_eq_join_drain_events]
  · intro e he
    induction stream with
    | nil => simp [drain_events] at he
    | cons r rest ih =>
      cases r with
      | err => simp [drain_events] at he
      | ok oc =>
        cases oc with
        | none => simp [drain_events] at he
        | some c =>
          simp only [drain_events, List.mem_cons] at he
          rcases he with he | he
          · exact ⟨c, he⟩
          · exact ih he
  · rw [handle_response_events]
    simp

/-- A filesystem side effect of `_main`'s ending. -/
inductive FsAction where
  | delete_file (path : String)
deriving DecidableEq

/-- The cleanup decision at the end of `_main` (lines 242-261).  `res`
is the **outer** result of `futures::future::abortable`:
`Except.error ()` when the interrupt handler aborted the task
(`Err(Aborted)`), `Except.ok r` otherwise, with `r` the runner's own
`Result`.  `if let Ok(_) = res` matches `Ok(Err(_))` too, so a run
whose runner failed with an error still enters the cleanup block; there
the save file is removed iff the state had been rehydrated from it
(`has_saved`) and the configured path equals the default one
(`if has_saved && opts.save_file == SAVE_FILE { remove_file }`).  The
default path constant `SAVE_FILE` (in `constants.rs`, not among the
provided sources) is the abstract parameter `default_save`. -/
def finish_actions (res : Except Unit (Except String Unit))
    (has_saved : Bool) (save_file default_save : String) : List FsAction :=
  match res with
  | Except.ok _ =>
    if has_saved && (save_file == default_save) then
      [FsAction.delete_file save_file]
    else []
  | Except.error _ => []

/-- C8 (counterexample): the claimed "clean run deletes iff the path is
the default" fails in both directions.  A clean, error-free run at the
default path that was **not** rehydrated from a save
(`has_saved = false`) deletes nothing; and a run whose runner failed
with an error — abnormal termination by the claim's own terms — still
deletes the save when rehydrated at the default path, because
`if let Ok(_) = res` matches the outer abortable result `Ok(Err(_))`. -/
theorem finish_actions_clean_default_no_delete :
    finish_actions (Except.ok (Except.ok ())) false ".rwalk.json" ".rwalk.json"
        = [] ∧
      finish_actions (Except.ok (Except.error "worker error")) true
        ".rwalk.json" ".rwalk.json" = [FsAction.delete_file ".rwalk.json"] := by
  decide

/-- C8 (amended): the checkpoint file is deleted iff the top-level task
was not aborted by the interrupt signal (the runner's own result is
irrelevant: `Ok(Err(_))` enters the cleanup too), the run's state had
been rehydrated from the save file, and the configured save path equals
the default save path; an aborted (interrupted) run leaves the
checkpoint intact. -/
theorem finish_actions_delete_iff (res : Except Unit (Except String Unit))
    (has_saved : Bool) (save_file default_save : String) :
    FsAction.delete_file save_file ∈
        finish_actions res has_saved save_file default_save ↔
      ((∃ r, res = Except.ok r) ∧ has_saved = true ∧ save_file = default_save) := by
  cases res with
  | error e => simp [finish_actions]
  | ok r =>
    cases has_saved with
    | false => simp [finish_actions]
    | true =>
      by_cases h : save_file = default_save
      · simp [finish_actions, h]
      · simp [finish_actions, h]

/-- The parsed save file (`struct Save` in `main.rs`): the serialized
tree, depth, wordlist checksum and per-URL cursor map (`indexes`; the
`HashMap` is embedded as an association list). -/
structure SaveRec where
  tree : Tree
  depth : Nat
  wordlist_checksum : String
  indexes : List (String × List Nat)

/-- The live state `_main` holds after the resume decision. -/
structure ResumeState where
  tree : Tree
  depth : Nat
  indexes : List (String × List Nat)
  has_saved : Bool
  warned_words_changed : Bool

/-- Rust `str::trim_end_matches('/')`: drop every trailing slash. -/
def trim_end_slash (s : String) : String :=
  ⟨(s.data.reverse.dropWhile (fun c => c = '/')).reverse⟩

/-- The fresh state `_main` builds when no save is used: a new tree whose
root holds the configured URL at depth 0 with the URL's path (trailing
slashes trimmed), depth 0 and an empty cursor map. -/
def fresh_state (cfg_url : String) (url_path : String → String) : ResumeState :=
  { tree := { root := some (TreeNode.node
      { url := cfg_url, depth := 0, path := trim_end_slash (url_path cfg_url),
        status_code := 0, extra := [] } []) },
    depth := 0, indexes := [], has_saved := false, warned_words_changed := false }

/-- The wordlist checksum computed in `_main` and in the signal handler:
the hex SHA-256 of the words joined by a single newline.  The `sha2`
crate is external, so the digest is the abstract parameter
`sha256_hex`. -/
def checksum_of (sha256_hex : String → String) (words : List String) : String :=
  sha256_hex (String.intercalate "\n" words)

/-- The resume decision of `_main` (lines 95-155).  `read_result` is the
outcome of reading the save file: `none` when the read fails, `some
(Except.error _)` when it reads but does not parse (the `?` propagates
that error), `some (Except.ok s)` for a parsed save `s`.  The save is
used only under `--resume`, only when its tree has a root, and only when
that root's URL equals the configured URL; the saved cursor map is
installed only when the saved checksum matches the current one, else the
cursors restart empty and the user is warned. -/
def rehydrate (opts : Opts) (read_result : Option (Except Unit SaveRec))
    (words : List String) (sha256_hex : String → String)
    (url_path : String → String) : Except Unit ResumeState :=
  if opts.resume then
    match read_result with
    | some (Except.ok s) =>
      match s.tree.root with
      | some root =>
        if root.data.url ≠ opts.url then
          Except.ok (fresh_state opts.url url_path)
        else if s.wordlist_checksum = checksum_of sha256_hex words then
          Except.ok { tree := s.tree, depth := s.depth, indexes := s.indexes,
                      has_saved := true, warned_words_changed := false }
        else
          Except.ok { tree := s.tree, depth := s.depth, indexes := [],
                      has_saved := true, warned_words_changed := true }
      | none => Except.ok (fresh_state opts.url url_path)
    | some (Except.error e) => Except.error e
    | none => Except.ok (fresh_state opts.url url_path)
  else Except.ok (fresh_state opts.url url_path)

/-- C2: under `--resume` with a readable, parsed save: a root-URL
mismatch discards the save and starts fresh (new root at depth 0, no
cursors); on a match the saved tree and depth are installed and the
saved cursor map is installed iff the saved checksum equals the hex
SHA-256 of the current words joined by a newline — on mismatch the
cursors start empty while tree and depth are kept and the
words-have-changed warning is raised. -/
theorem rehydrate_resume_spec (opts : Opts) (s : SaveRec)
    (words : List String) (sha256_hex : String → String)
    (url_path : String → String) (root : TreeNode)
    (hresume : opts.resume = true) (hroot : s.tree.root = some root) :
    (root.data.url ≠ opts.url →
      rehydrate opts (some (Except.ok s)) words sha256_hex url_path =
        Except.ok (fresh_state opts.url url_path)) ∧
    (root.data.url = opts.url →
      ∃ st, rehydrate opts (some (Except.ok s)) words sha256_hex url_path =
          Except.ok st ∧
        st.tree = s.tree ∧ st.depth = s.depth ∧ st.has_saved = true ∧
        (s.wordlist_checksum = checksum_of sha256_hex words →
          st.indexes = s.indexes ∧ st.warned_words_changed = false) ∧
        (s.wordlist_checksum ≠ checksum_of sha256_hex words →
          st.indexes = [] ∧ st.warned_words_changed = true)) := by
  constructor
  · intro hne
    rw [rehydrate, if_pos hresume, hroot]
    simp only [if_pos hne]
  · intro heq
    by_cases hck : s.wordlist_checksum = checksum_of sha256_hex words
    · refine ⟨{ tree := s.tree, depth := s.depth, indexes := s.indexes,
                has_saved := true, warned_words_changed := false },
        ?_, rfl, rfl, rfl, fun _ => ⟨rfl, rfl⟩, fun hc => absurd hck hc⟩
      unfold rehydrate
      simp [hresume, hroot, heq, hck]
    · refine ⟨{ tree := s.tree, depth := s.depth, indexes := [],
                has_saved := true, warned_words_changed := true },
        ?_, rfl, rfl, rfl, fun hc => absurd hc hck, fun _ => ⟨rfl, rfl⟩⟩
      unfold rehydrate
      simp [hresume, hroot, heq, hck]

/-- A concrete save record used to exercise the resume theorem. -/
def demoSave : SaveRec :=
  { tree := { root := some (TreeNode.node
      { url := "http://h", depth := 0, path := "", status_code := 0,
        extra := [] } []) },
    depth := 2, wordlist_checksum := "ck",
    indexes := [("http://h", [3, 1])] }

/-- The options and saved root used to exercise the resume theorem. -/
def demoOpts : Opts := { permOpts with url := "http://h", resume := true }

def demoRoot : TreeNode :=
  TreeNode.node { url := "http://h", depth := 0, path := "",
                  status_code := 0, extra := [] } []

/-- The resume theorem applied to a concrete save whose root URL matches
the configured one: the saved tree, depth and (checksum matching) cursor
map of `demoSave` are installed. -/
theorem rehydrate_resume_spec_witness :
    (demoRoot.data.url ≠ demoOpts.url →
      rehydrate demoOpts (some (Except.ok demoSave)) ["a"] (fun _ => "ck")
          (fun u => u) =
        Except.ok (fresh_state demoOpts.url (fun u => u))) ∧
    (demoRoot.data.url = demoOpts.url →
      ∃ st, rehydrate demoOpts (some (Except.ok demoSave)) ["a"] (fun _ => "ck")
            (fun u => u) = Except.ok st ∧
        st.tree = demoSave.tree ∧ st.depth = demoSave.depth ∧
        st.has_saved = true ∧
        (demoSave.wordlist_checksum = checksum_of (fun _ => "ck") ["a"] →
          st.indexes = demoSave.indexes ∧ st.warned_words_changed = false) ∧
        (demoSave.wordlist_checksum ≠ checksum_of (fun _ => "ck") ["a"] →
          st.indexes = [] ∧ st.warned_words_changed = true)) :=
  rehydrate_resume_spec demoOpts demoSave ["a"] (fun _ => "ck") (fun u => u)
    demoRoot rfl rfl

/-- `Recursive::process_chunk`'s URL composition: append the word to the
parent's URL with exactly one `/` separator
(`match url.ends_with('/')`). -/
def child_url (parent_url word : String) : String :=
  if parent_url.data.getLast? = some '/' then parent_url ++ word
  else parent_url ++ "/" ++ word

/-- The per-word recording decision of `Recursive::process_chunk`: on a
response, drain the body, evaluate the filter predicate (which also sees
the current depth), and on success build the child `TreeData` — depth is
the parent's depth plus one and the path is the word itself; on a
transport error, build the synthetic `status_code = 0` child iff
`hit_connection_errors` is set and the error is a connect failure. -/
def rec_child (check : String → Nat → Bool)
    (parse_show : String → List (String × String)) (hit_conn : Bool)
    (parent : TreeData) (word url : String) (outcome : Outcome) : Option TreeData :=
  match outcome with
  | Outcome.response status stream =>
    let text := drainBody stream
    if check text status then
      some { url := url, depth := parent.depth + 1, path := word,
             status_code := status, extra := parse_show text }
    else none
  | Outcome.transportError is_connect =>
    if hit_conn && is_connect then
      some { url := url, depth := parent.depth + 1, path := word,
             status_code := 0, extra := [] }
    else none

/-- The duplicate-guarded insert of `Recursive::process_chunk`: if a
child of the parent already has this path, skip the insertion (the
source prints the "Already in tree" warning), otherwise append the new
child to the parent's children. -/
def rec_insert (children : List TreeData) (d : TreeData) : List TreeData :=
  if children.any (fun c => c.path == d.path) then children
  else children ++ [d]

/-- One loop iteration's effect on the parent's child list: record the
word's outcome and insert it under the duplicate guard. -/
def rec_step (check : String → Nat → Bool)
    (parse_show : String → List (String × String)) (hit_conn : Bool)
    (outcomes : String → Outcome) (parent : TreeData) (word : String)
    (children : List TreeData) : List TreeData :=
  match rec_child check parse_show hit_conn parent word
      (child_url parent.url word) (outcomes (child_url parent.url word)) with
  | some d => rec_insert children d
  | none => children

/-- The state one recursive worker owns: its cursor
(`indexes[parent.url][i]`) and the parent's child list. -/
structure RecWorkerState where
  cursor : Nat
  children : List TreeData

/-- Fuel-driven embedding of the worker loop of
`Recursive::process_chunk`: while the cursor is below the chunk length,
process `chunk[cursor]` and then increment the cursor by one — the
increment happens after the match on the outcome, hence exactly once per
word on every branch, transport errors included.  Returns the final
state and the sequence of cursor values observed at each loop head
(final value included).  `fuel ≥ chunk.length` covers every iteration. -/
def rec_loop (check : String → Nat → Bool)
    (parse_show : String → List (String × String)) (hit_conn : Bool)
    (outcomes : String → Outcome) (parent : TreeData) (chunk : List String) :
    Nat → RecWorkerState → RecWorkerState × List Nat
  | 0, st => (st, [st.cursor])
  | fuel + 1, st =>
    if h : st.cursor < chunk.length then
      let r := rec_loop check parse_show hit_conn outcomes parent chunk fuel
        { cursor := st.cursor + 1,
          children := rec_step check parse_show hit_conn outcomes parent
            (chunk.get ⟨st.cursor, h⟩) st.children }
      (r.1, st.cursor :: r.2)
    else (st, [st.cursor])

/-- `Recursive::process_chunk` for one worker: run the loop with enough
fuel for the whole chunk. -/
def rec_process_chunk (check : String → Nat → Bool)
    (parse_show : String → List (String × String)) (hit_conn : Bool)
    (outcomes : String → Outcome) (parent : TreeData) (chunk : List String)
    (st : RecWorkerState) : RecWorkerState × List Nat :=
  rec_loop check parse_show hit_conn outcomes parent chunk chunk.length st

theorem rec_child_depth (check : String → Nat → Bool)
    (parse_show : String → List (String × String)) (hit_conn : Bool)
    (parent : TreeData) (word url : String) (outcome : Outcome) (d : TreeData)
    (h : rec_child check parse_show hit_conn parent word url outcome = some d) :
    d.depth = parent.depth + 1 := by
  cases outcome with
  | response status stream =>
    simp only [rec_child] at h
    by_cases hc : check (drainBody stream) status
    · rw [if_pos hc] at h
      cases h
      rfl
    · rw [if_neg hc] at h
      exact Option.noConfusion h
  | transportError is_connect =>
    simp only [rec_child] at h
    by_cases hc : (hit_conn && is_connect) = true
    · rw [if_pos hc] at h
      cases h
      rfl
    · rw [if_neg hc] at h
      exact Option.noConfusion h

theorem rec_insert_skip (children : List TreeData) (d : TreeData)
    (h : ∃ c ∈ children, c.path = d.path) : rec_insert children d = children := by
  rcases h with ⟨c, hcmem, hcp⟩
  rw [rec_insert, if_pos]
  exact List.any_eq_true.mpr ⟨c, hcmem, beq_iff_eq.mpr hcp⟩

theorem rec_insert_cases (children : List TreeData) (d : TreeData) :
    rec_insert children d = children ∨
      (rec_insert children d = children ++ [d] ∧
        d.path ∉ children.map TreeData.path) := by
  by_cases h : children.any (fun c => c.path == d.path)
  · exact Or.inl (by rw [rec_insert, if_pos h])
  · refine Or.inr ⟨by rw [rec_insert, if_neg h], fun hmem => h ?_⟩
    rcases List.mem_map.mp hmem with ⟨c, hcmem, hcp⟩
    exact List.any_eq_true.mpr ⟨c, hcmem, beq_iff_eq.mpr hcp⟩

theorem rec_loop_preserves (check : String → Nat → Bool)
    (parse_show : String → List (String × String)) (hit_conn : Bool)
    (outcomes : String → Outcome) (parent : TreeData) (chunk : List String)
    (Q : List TreeData → Prop)
    (hstep : ∀ ch d, Q ch → d.depth = parent.depth + 1 → Q (rec_insert ch d)) :
    ∀ (fuel : Nat) (st : RecWorkerState), Q st.children →
      Q ((rec_loop check parse_show hit_conn outcomes parent chunk fuel st).1.children)
  | 0, st, hq => hq
  | fuel + 1, st, hq => by
    by_cases h : st.cursor < chunk.length
    · simp only [rec_loop, dif_pos h]
      refine rec_loop_preserves check parse_show hit_conn outcomes parent chunk
        Q hstep fuel _ ?_
      show Q (rec_step check parse_show hit_conn outcomes parent
        (chunk.get ⟨st.cursor, h⟩) st.children)
      rw [rec_step]
      cases hrc : rec_child check parse_show hit_conn parent
          (chunk.get ⟨st.cursor, h⟩)
          (child_url parent.url (chunk.get ⟨st.cursor, h⟩))
          (outcomes (child_url parent.url (chunk.get ⟨st.cursor, h⟩))) with
      | none => exact hq
      | some d =>
        exact hstep st.children d hq
          (rec_child_depth check parse_show hit_conn parent _ _ _ d hrc)
    · simp only [rec_loop, dif_neg h]
      exact hq

theorem rec_loop_trace (check : String → Nat → Bool)
    (parse_show : String → List (String × String)) (hit_conn : Bool)
    (outcomes : String → Outcome) (parent : TreeData) (chunk : List String) :
    ∀ (fuel : Nat) (st : RecWorkerState),
      chunk.length - st.cursor ≤ fuel → st.cursor ≤ chunk.length →
      (rec_loop check parse_show hit_conn outcomes parent chunk fuel st).2 =
        List.range' st.cursor (chunk.length - st.cursor + 1) ∧
      (rec_loop check parse_show hit_conn outcomes parent chunk fuel st).1.cursor =
        chunk.length
  | 0, st, hfuel, hle => by
    have hc : st.cursor = chunk.length := by omega
    simp [rec_loop, hc]
  | fuel + 1, st, hfuel, hle => by
    by_cases h : st.cursor < chunk.length
    · have ih := rec_loop_trace check parse_show hit_conn outcomes parent chunk
        fuel { cursor := st.cursor + 1,
               children := rec_step check parse_show hit_conn outcomes parent
                 (chunk.get ⟨st.cursor, h⟩) st.children }
        (by simp only; omega) (by simp only; omega)
      simp only [rec_loop, dif_pos h]
      refine ⟨?_, ih.2⟩
      rw [ih.1]
      have hn : chunk.length - st.cursor = (chunk.length - (st.cursor + 1)) + 1 := by
        omega
      rw [hn, List.range'_succ, List.range'_succ]
      rfl
    · simp only [rec_loop, dif_neg h]
      have hc : st.cursor = chunk.length := by omega
      simp [hc]

theorem chunks_length_sum (words : List String) (n : Nat) (hn : 1 ≤ n) :
    ((rustChunks words n).map List.length).sum = words.length := by
  conv_rhs => rw [← rustChunksF_flatten words.length n words hn le_rfl]
  exact (List.length_flatten _).symm

theorem sum_le_sum_forall2 {β : Type} {f : β → Nat} :
    ∀ {a : List Nat} {b : List β}, List.Forall₂ (fun c x => c ≤ f x) a b →
      a.sum ≤ (b.map f).sum := by
  intro a b h
  induction h with
  | nil => simp
  | cons h _ ih => simpa using Nat.add_le_add h ih

theorem sum_eq_sum_forall2 {β : Type} {f : β → Nat} :
    ∀ {a : List Nat} {b : List β}, List.Forall₂ (fun c x => c = f x) a b →
      a.sum = (b.map f).sum := by
  intro a b h
  induction h with
  | nil => simp
  | cons h _ ih => simp [h, ih]

/-- C5: one recursive worker's cursor takes exactly the values
`c₀, c₀+1, …, |chunk|` — one increment per processed word, on every
outcome branch including transport errors (the trace does not depend on
`outcomes`), never decreasing — and the worker stops with its cursor at
the chunk length.  Moreover any cursor family pointwise bounded by the
chunk lengths (as every reachable cursor is) sums to at most the
wordlist length, with equality when every chunk is exhausted, i.e. when
the parent's depth is complete. -/
theorem rec_cursor_discipline (check : String → Nat → Bool)
    (parse_show : String → List (String × String)) (hit_conn : Bool)
    (outcomes : String → Outcome) (parent : TreeData) (chunk : List String)
    (st0 : RecWorkerState) (h0 : st0.cursor ≤ chunk.length) :
    ((rec_process_chunk check parse_show hit_conn outcomes parent chunk st0).2 =
        List.range' st0.cursor (chunk.length - st0.cursor + 1) ∧
      (rec_process_chunk check parse_show hit_conn outcomes parent chunk st0).1.cursor =
        chunk.length) ∧
    (∀ (words : List String) (n : Nat) (cursors : List Nat), 1 ≤ n →
      List.Forall₂ (fun c ch => c ≤ List.length ch) cursors (rustChunks words n) →
      cursors.sum ≤ words.length) ∧
    (∀ (words : List String) (n : Nat) (cursors : List Nat), 1 ≤ n →
      List.Forall₂ (fun c ch => c = List.length ch) cursors (rustChunks words n) →
      cursors.sum = words.length) := by
  refine ⟨rec_loop_trace check parse_show hit_conn outcomes parent chunk
      chunk.length st0 (by omega) h0, ?_, ?_⟩
  · intro words n cursors hn hb
    calc cursors.sum ≤ ((rustChunks words n).map List.length).sum :=
          sum_le_sum_forall2 hb
      _ = words.length := chunks_length_sum words n hn
  · intro words n cursors hn hb
    calc cursors.sum = ((rustChunks words n).map List.length).sum :=
          sum_eq_sum_forall2 hb
      _ = words.length := chunks_length_sum words n hn

/-- A parent node, trivial filter, empty show rules and a constant
outcome used to exercise the recursive worker on concrete input. -/
def demoParent : TreeData :=
  { url := "http://h", depth := 0, path := "", status_code := 200, extra := [] }

def demoCheck : String → Nat → Bool := fun _ _ => true

def demoShow : String → List (String × String) := fun _ => []

def demoOutcomes : String → Outcome := fun _ => Outcome.response 200 []

def demoState : RecWorkerState := { cursor := 0, children := [] }

/-- The cursor-discipline theorem applied to a two-word chunk starting
from cursor 0: the observed cursor values are `[0, 1, 2]` and the final
cursor is the chunk length. -/
theorem rec_cursor_discipline_witness :
    ((rec_process_chunk demoCheck demoShow false demoOutcomes demoParent
        ["a", "b"] demoState).2 =
        List.range' demoState.cursor (["a", "b"].length - demoState.cursor + 1) ∧
      (rec_process_chunk demoCheck demoShow false demoOutcomes demoParent
        ["a", "b"] demoState).1.cursor = ["a", "b"].length) ∧
    (∀ (words : List String) (n : Nat) (cursors : List Nat), 1 ≤ n →
      List.Forall₂ (fun c ch => c ≤ List.length ch) cursors (rustChunks words n) →
      cursors.sum ≤ words.length) ∧
    (∀ (words : List String) (n : Nat) (cursors : List Nat), 1 ≤ n →
      List.Forall₂ (fun c ch => c = List.length ch) cursors (rustChunks words n) →
      cursors.sum = words.length) :=
  rec_cursor_discipline demoCheck demoShow false demoOutcomes demoParent
    ["a", "b"] demoState (by decide)

/-- C6: every child the recursive worker adds carries depth
`parent.depth + 1`; the parent's child paths stay duplicate-free
whenever they start out duplicate-free; and the insert is skipped
outright when some existing child already has the word's path. -/
theorem rec_children_discipline (check : String → Nat → Bool)
    (parse_show : String → List (String × String)) (hit_conn : Bool)
    (outcomes : String → Outcome) (parent : TreeData) (chunk : List String)
    (st0 : RecWorkerState) :
    (∀ d ∈ (rec_process_chunk check parse_show hit_conn outcomes parent chunk
        st0).1.children, d ∈ st0.children ∨ d.depth = parent.depth + 1) ∧
    ((st0.children.map TreeData.path).Nodup →
      (((rec_process_chunk check parse_show hit_conn outcomes parent chunk
        st0).1.children).map TreeData.path).Nodup) ∧
    (∀ (children : List TreeData) (d : TreeData),
      (∃ c ∈ children, c.path = d.path) → rec_insert children d = children) := by
  refine ⟨?_, ?_, rec_insert_skip⟩
  · exact rec_loop_preserves check parse_show hit_conn outcomes parent chunk
      (fun ch => ∀ d ∈ ch, d ∈ st0.children ∨ d.depth = parent.depth + 1)
      (fun ch d hq hd => by
        rcases rec_insert_cases ch d with hcase | ⟨hcase, _⟩
        · rw [hcase]
          exact hq
        · rw [hcase]
          intro x hx
          rcases List.mem_append.mp hx with hx | hx
          · exact hq x hx
          · rcases List.mem_singleton.mp hx with rfl
            exact Or.inr hd)
      chunk.length st0 (fun d hd => Or.inl hd)
  · intro hnodup
    exact rec_loop_preserves check parse_show hit_conn outcomes parent chunk
      (fun ch => (ch.map TreeData.path).Nodup)
      (fun ch d hq _ => by
        rcases rec_insert_cases ch d with hcase | ⟨hcase, hnot⟩
        · rw [hcase]
          exact hq
        · rw [hcase, List.map_append]
          simp only [List.map_cons, List.map_nil]
          exact List.nodup_append.mpr ⟨hq, List.nodup_singleton _,
            fun x hx hx1 => hnot (List.mem_singleton.mp hx1 ▸ hx)⟩)
      chunk.length st0 hnodup

end Rwalk
